import Mathlib

/-!
Verification model of the nfs-watcher-blob-uploader service.

The definitions below are a shallow embedding of the Python sources under
`app/`: the watcher poll loop (`app/watcher.py`), the recovery scan
(`app/recovery.py`), the worker pipeline (`app/worker.py`), the session
state machine (`app/session.py`) and the extension parsing of
`app/config.py`.  File sizes, modification times and clock readings are
modelled as integers (the code only ever compares them for equality and
order); directory listings are modelled as explicit lists of entries, and
each blocking filesystem or network call of the worker is modelled by an
oracle describing its outcome.
-/

namespace NfsWatcher

/-! ## Character and string helpers

`lowerChar` models Python's `str.lower` on the ASCII range (the range the
configuration and filename handling of the service cares about); `pathSuffix`
models `pathlib.PurePath.suffix`: the final component's extension including
the leading dot, and the empty string when the last dot is the first or the
last character of the name. -/

def lowerChar : Char → Char
  | 'A' => 'a' | 'B' => 'b' | 'C' => 'c' | 'D' => 'd' | 'E' => 'e' | 'F' => 'f'
  | 'G' => 'g' | 'H' => 'h' | 'I' => 'i' | 'J' => 'j' | 'K' => 'k' | 'L' => 'l'
  | 'M' => 'm' | 'N' => 'n' | 'O' => 'o' | 'P' => 'p' | 'Q' => 'q' | 'R' => 'r'
  | 'S' => 's' | 'T' => 't' | 'U' => 'u' | 'V' => 'v' | 'W' => 'w' | 'X' => 'x'
  | 'Y' => 'y' | 'Z' => 'z' | c => c

def lowerStr (s : String) : String :=
  ⟨s.data.map lowerChar⟩

/-- Index of the last `'.'` in a list of characters, if any. -/
def rfindDot : List Char → Option Nat
  | [] => none
  | c :: rest =>
    match rfindDot rest with
    | some i => some (i + 1)
    | none => if c = '.' then some 0 else none

/-- `pathlib` suffix on a character list: everything from the last dot on,
provided that dot is neither the first nor the last character. -/
def suffixAux (l : List Char) : List Char :=
  match rfindDot l with
  | some i => if 0 < i ∧ i < l.length - 1 then l.drop i else []
  | none => []

def pathSuffix (s : String) : String :=
  ⟨suffixAux s.data⟩

/-- Python's `str.endswith`, on the underlying character lists. -/
def strEndsWith (s t : String) : Bool :=
  List.isSuffixOf t.data s.data

/-! ## Extension parsing (`app/config.py`, `parse_extensions`)

`'.bin,.mp4,.dat' -> ['.bin', '.mp4', '.dat']`: split on commas, strip each
piece, drop empty pieces, lowercase, and put a dot in front when the piece
does not already start with one.  The Python code builds a `frozenset`; we
keep the list, since only membership is ever used.  `splitComma` models
`str.split(",")` (keeping empty pieces) and `trimChars` models `str.strip`
on the character lists. -/

def splitComma : List Char → List (List Char)
  | [] => [[]]
  | c :: rest =>
    match splitComma rest with
    | [] => [[c]]
    | g :: gs => if c = ',' then [] :: g :: gs else (c :: g) :: gs

def trimChars (l : List Char) : List Char :=
  ((l.dropWhile Char.isWhitespace).reverse.dropWhile Char.isWhitespace).reverse

def parse_extensions (v : String) : List String :=
  if trimChars v.data = [] then []
  else
    ((((splitComma v.data).map trimChars).filter (fun e => e ≠ [])).map
      (fun e =>
        if e.head? = some '.' then (⟨e.map lowerChar⟩ : String)
        else ⟨'.' :: e.map lowerChar⟩))

/-! ## Directory scanning (`app/watcher.py`, `_scan_directory`)

A directory entry carries the outcome of `entry.is_file(follow_symlinks=False)`
and of `entry.stat(follow_symlinks=False)`.  A stat failing with `ENOENT` or
`ESTALE` skips the entry; any other `OSError` (identified by its errno)
aborts the whole scan. -/

inductive StatResult where
  | ok (size : Int) (mtime : Int)
  | transientErr
  | fatalErr (code : Nat)
deriving DecidableEq

structure DirEntry where
  name : String
  isRegFile : Bool
  statResult : StatResult
deriving DecidableEq

/-- `name -> (size, mtime)` map produced by a scan, in directory order. -/
abbrev ScanMap := List (String × Int × Int)

def lookupScan : ScanMap → String → Option (Int × Int)
  | [], _ => none
  | (n, s, t) :: rest, f => if n = f then some (s, t) else lookupScan rest f

def namesOf (m : ScanMap) : Finset String :=
  (m.map (fun e => e.1)).toFinset

/-- The filter stage of `_scan_directory`: `allowed_extensions and
Path(entry.name).suffix.lower() not in allowed_extensions` skips the entry,
so a name passes when the set is empty (falsy) or contains the lowercased
suffix. -/
def passesExt (allowed : List String) (name : String) : Bool :=
  allowed.isEmpty || allowed.contains (lowerStr (pathSuffix name))

def scanEntries (allowed : List String) : List DirEntry → Except Nat ScanMap
  | [] => .ok []
  | e :: rest =>
    if e.isRegFile = false then scanEntries allowed rest
    else if (!allowed.isEmpty) && !(allowed.contains (lowerStr (pathSuffix e.name))) then
      scanEntries allowed rest
    else
      match e.statResult with
      | .ok size mtime => (scanEntries allowed rest).map (fun m => (e.name, size, mtime) :: m)
      | .transientErr => scanEntries allowed rest
      | .fatalErr code => .error code

/-- `_scan_directory`: a missing directory (`FileNotFoundError` from
`os.scandir`) yields an empty map. -/
def scanDirectory (dirMissing : Bool) (allowed : List String)
    (entries : List DirEntry) : Except Nat ScanMap :=
  if dirMissing then .ok [] else scanEntries allowed entries

/-! ## Data model (`app/models.py`, `app/session.py`) -/

structure WorkItem where
  source_path : String
  session_name : String
  date_prefix : String
  filename : String
  from_recovery : Bool
deriving DecidableEq

structure SessionState where
  active : Bool := false
  session_name : Option String := none
  date_prefix : Option String := none
  processed_ok : Int := 0
  processed_err : Int := 0
  last_error : Option String := none
deriving DecidableEq

def initialSessionState : SessionState := {}

/-- In-process telemetry instruments touched by watcher, recovery and
workers: the `files.processed` / `files.failed` counters, the `queue.depth`
up-down counter, and the count of `queue.task_done()` calls. -/
structure Metrics where
  files_processed : Int := 0
  files_failed : Int := 0
  queue_depth : Int := 0
  tasks_done : Int := 0
deriving DecidableEq

/-! ## Watcher cycle (`app/watcher.py`, `watcher_loop`) -/

structure WatcherState where
  previous : ScanMap
  pending : Finset String
deriving DecidableEq

/-- Line 58 of `watcher.py`: `pending -= pending - set(current)`. -/
def prunePending (pending currentNames : Finset String) : Finset String :=
  pending \ (pending \ currentNames)

/-- The `for filename, (size, mtime) in current.items()` loop: skip names
already pending, names absent from the previous scan, names whose
`(size, mtime)` changed, and names younger than `min_file_age_s`; otherwise
build a `WorkItem`, enqueue it and add the name to `pending`. -/
def runCycle (previous : ScanMap) (minAge now : Int)
    (incomingDir sess date : String) :
    ScanMap → Finset String → List WorkItem × Finset String
  | [], pend => ([], pend)
  | (f, size, mtime) :: rest, pend =>
    if f ∈ pend then runCycle previous minAge now incomingDir sess date rest pend
    else
      match lookupScan previous f with
      | none => runCycle previous minAge now incomingDir sess date rest pend
      | some (psize, pmtime) =>
        if size ≠ psize ∨ mtime ≠ pmtime then
          runCycle previous minAge now incomingDir sess date rest pend
        else if now - mtime < minAge then
          runCycle previous minAge now incomingDir sess date rest pend
        else
          let item : WorkItem :=
            ⟨incomingDir ++ "/" ++ f, sess, date, f, false⟩
          let out := runCycle previous minAge now incomingDir sess date rest (insert f pend)
          (item :: out.1, out.2)

/-- One iteration of the `watcher_loop` body: inactive sessions reset
`previous` and `pending`; a failed scan (transient or backoff) leaves both
untouched and enqueues nothing; a successful scan prunes `pending`, walks
the current map and replaces `previous` with `current`.  Returns the new
watcher state and the items enqueued this cycle. -/
def watcherCycle (st : WatcherState) (active : Bool)
    (scanResult : Except Nat ScanMap) (minAge now : Int)
    (incomingDir sess date : String) : WatcherState × List WorkItem :=
  if active = false then (⟨[], ∅⟩, [])
  else
    match scanResult with
    | .error _ => (st, [])
    | .ok current =>
      let pruned := prunePending st.pending (namesOf current)
      let out := runCycle st.previous minAge now incomingDir sess date current pruned
      (⟨current, out.2⟩, out.1)

/-! ## Session lifecycle (`app/session.py`) -/

structure PathsCfg where
  nfs_incoming_dir : String
  nfs_processing_root : String
  local_staging_root : String
deriving DecidableEq

/-- `start_session`: raise `ValueError` when a session is already active
(before touching any state); otherwise resolve the name with Python's
`session_name or generate_session_name()` (an empty or missing supplied
name falls back to the generated one), make the three directories and set
the state.  Returns the possibly updated state, and either the error or
`(created dirs, date_prefix, session_name)`. -/
def start_session (st : SessionState) (cfg : PathsCfg)
    (supplied : Option String) (generated : String) (today : String) :
    SessionState × Except String (List String × String × String) :=
  if st.active then (st, .error "Session already active")
  else
    let name :=
      match supplied with
      | some n => if n = "" then generated else n
      | none => generated
    let dirs := [ cfg.nfs_incoming_dir ++ "/" ++ name,
                  cfg.nfs_processing_root ++ "/" ++ today ++ "/" ++ name,
                  cfg.local_staging_root ++ "/" ++ today ++ "/" ++ name ]
    ({ st with active := true, session_name := some name, date_prefix := some today },
     .ok (dirs, today, name))

/-- `stop_session`: set `active = False`, touch nothing else. -/
def stop_session (st : SessionState) : SessionState :=
  { st with active := false }

/-! ## Recovery (`app/recovery.py`, `recover`) -/

structure FileEntry where
  name : String
  isFile : Bool
deriving DecidableEq

structure SessionDir where
  name : String
  isDir : Bool
  files : List FileEntry
deriving DecidableEq

structure DateDir where
  name : String
  isDir : Bool
  sessions : List SessionDir
deriving DecidableEq

/-- Insertion sort by a string key, modelling Python's `sorted(...)` over
directory entries (compared by name). -/
def insertByKey {α : Type} (key : α → String) (x : α) : List α → List α
  | [] => [x]
  | y :: ys => if key x ≤ key y then x :: y :: ys else y :: insertByKey key x ys

def sortByKey {α : Type} (key : α → String) : List α → List α
  | [] => []
  | x :: xs => insertByKey key x (sortByKey key xs)

def mkRecoveryItem (root date sess file : String) : WorkItem :=
  ⟨root ++ "/" ++ date ++ "/" ++ sess ++ "/" ++ file, sess, date, file, true⟩

def scanSessionFiles (root date sess : String) : List FileEntry → List WorkItem
  | [] => []
  | f :: rest =>
    if f.isFile = false then scanSessionFiles root date sess rest
    else if strEndsWith f.name ".completed" then scanSessionFiles root date sess rest
    else mkRecoveryItem root date sess f.name :: scanSessionFiles root date sess rest

def scanSessionDirs (root date : String) : List SessionDir → List WorkItem
  | [] => []
  | s :: rest =>
    (if s.isDir then scanSessionFiles root date s.name s.files else [])
      ++ scanSessionDirs root date rest

def scanDateDirs (root : String) : List DateDir → List WorkItem
  | [] => []
  | d :: rest =>
    (if d.isDir then scanSessionDirs root d.name (sortByKey SessionDir.name d.sessions)
     else [])
      ++ scanDateDirs root rest

/-- `_scan_processing`: nothing when the root does not exist; otherwise walk
sorted date directories, sorted session directories, and the files inside,
skipping non-files and `.completed` markers. -/
def scanProcessing (root : String) (rootExists : Bool)
    (dates : List DateDir) : List WorkItem :=
  if rootExists = false then []
  else scanDateDirs root (sortByKey DateDir.name dates)

def itemKey (i : WorkItem) : String × String :=
  ( i.date_prefix, i.session_name)

/-- Strict lexicographic comparison of `(date_prefix, session_name)` pairs,
matching Python tuple `<`. -/
def pairLtB (a b : String × String) : Bool :=
  if a.1 < b.1 then true
  else if a.1 = b.1 ∧ a.2 < b.2 then true
  else false

def pairLe (a b : String × String) : Prop :=
  a.1 < b.1 ∨ (a.1 = b.1 ∧ a.2 ≤ b.2)

/-- `max(items, key=lambda i: (i.date_prefix, i.session_name))`: fold keeping
the current maximum, replacing it only on a strictly greater key. -/
def maxByKey (first : WorkItem) (rest : List WorkItem) : WorkItem :=
  rest.foldl (fun acc i => if pairLtB (itemKey acc) (itemKey i) then i else acc) first

/-- `recover`: scan `.processing`; with no items return 0 and touch nothing;
otherwise mark the session active with the names of the maximal item and
append every item to the queue.  Returns `(count, state, queue)`. -/
def recover (root : String) (rootExists : Bool) (dates : List DateDir)
    (st : SessionState) (queue : List WorkItem) :
    Nat × SessionState × List WorkItem :=
  let items := scanProcessing root rootExists dates
  match items with
  | [] => (0, st, queue)
  | first :: rest =>
    let last_item := maxByKey first rest
    (items.length,
     { st with active := true,
               session_name := some last_item.session_name,
               date_prefix := some ( last_item.date_prefix) },
     queue ++ items)

/-! ## Worker pipeline (`app/worker.py`) -/

/-- Outcome classes of a blocking filesystem call inside `_process_item`. -/
inductive FsErr where
  | enoent
  | estale
  | other (code : Nat)
deriving DecidableEq

def fsMsg : FsErr → String
  | .enoent => "OSError: ENOENT"
  | .estale => "OSError: ESTALE"
  | .other code => "OSError: errno " ++ toString code

/-- Oracle for the effectful steps of one `_process_item` run: `none` means
the call succeeded. -/
structure ProcWorld where
  claimRes : Option FsErr
  mkdirRes : Option FsErr
  copyRes : Option FsErr
  uploadRes : Option String
  commitRes : Option FsErr
  unlinkRes : Option FsErr
deriving DecidableEq

/-- Which pipeline stages completed during a `_process_item` run. -/
structure ProcTrace where
  claimed : Bool
  staged : Bool
  uploaded : Bool
  committed : Bool
  stagingDeleted : Bool
deriving DecidableEq

def emptyTrace : ProcTrace := ⟨false, false, false, false, false⟩

/-- Steps 2 to 4 of `_process_item`: mkdir + copy to staging, upload, commit
rename; any failure raises.  Step 4's unlink failure is swallowed with a
warning. -/
def processRest (w : ProcWorld) (claimed : Bool) : Except String ProcTrace :=
  match w.mkdirRes with
  | some e => .error (fsMsg e)
  | none =>
    match w.copyRes with
    | some e => .error (fsMsg e)
    | none =>
      match w.uploadRes with
      | some msg => .error msg
      | none =>
        match w.commitRes with
        | some e => .error (fsMsg e)
        | none => .ok ⟨claimed, true, true, true, w.unlinkRes.isNone⟩

/-- `_process_item`: for non-recovery items the claim rename runs first; on
`ENOENT`/`ESTALE` the function logs and returns normally having done nothing
else, on any other `OSError` it raises; recovery items skip the claim. -/
def processItem (item : WorkItem) (w : ProcWorld) : Except String ProcTrace :=
  if item.from_recovery = false then
    match w.claimRes with
    | some .enoent => .ok emptyTrace
    | some .estale => .ok emptyTrace
    | some (.other code) => .error (fsMsg (.other code))
    | none => processRest w true
  else processRest w false

/-- The worker's view of a `_process_item` run: success, or an exception
carried into the `except` block (the traceback is abstracted by the error
string). -/
inductive Outcome where
  | ok
  | exc (tb : String)
deriving DecidableEq

def outcomeOf (r : Except String ProcTrace) : Outcome :=
  match r with
  | .ok _ => .ok
  | .error tb => .exc tb

/-- The `try/except/finally` accounting of one `worker` iteration around a
dequeued item (`worker.py` lines 52-67). -/
def workerStep (st : SessionState) (m : Metrics) (item : WorkItem)
    (res : Outcome) : SessionState × Metrics :=
  match res with
  | .ok =>
    ({ st with processed_ok := st.processed_ok + 1 },
     { m with files_processed := m.files_processed + 1,
              tasks_done := m.tasks_done + 1,
              queue_depth := m.queue_depth - 1 })
  | .exc tb =>
    ({ st with processed_err := st.processed_err + 1,
               last_error := some ( item.filename ++ ": " ++ tb) },
     { m with files_failed := m.files_failed + 1,
              tasks_done := m.tasks_done + 1,
              queue_depth := m.queue_depth - 1 })

/-- One full worker iteration on a dequeued item. -/
def workerIterate (st : SessionState) (m : Metrics) (item : WorkItem)
    (w : ProcWorld) : SessionState × Metrics :=
  workerStep st m item (outcomeOf (processItem item w))

/-! ## Whole-application step system (for the queue-depth accounting)

Ghost counters `enqueuedCount` and `finishedCount` record how many items
have ever been enqueued and how many worker iterations have finished; they
mirror the quantities the specification's invariant I4 speaks about. -/

structure AppState where
  wst : WatcherState
  session : SessionState
  metrics : Metrics
  queue : List WorkItem
  enqueuedCount : Nat
  finishedCount : Nat

inductive AppEvent where
  | watcherPoll (scan : Except Nat ScanMap) (minAge now : Int) (incomingRoot : String)
  | recoveryRun (root : String) (rootExists : Bool) (dates : List DateDir)
  | workerRun (w : ProcWorld)

/-- One scheduler step: a watcher poll (enqueues its cycle's items and bumps
the gauge once per item, `watcher.py` 80-82), a recovery run (same,
`recovery.py` 71-73), or a worker iteration (pops one item when available;
`workerStep` decrements the gauge in its `finally`). -/
def applyEvent (s : AppState) : AppEvent → AppState
  | .watcherPoll scan minAge now incomingRoot =>
    let sess := s.session.session_name.getD ""
    let date := s.session.date_prefix.getD ""
    let dir := incomingRoot ++ "/" ++ sess
    let out := watcherCycle s.wst s.session.active scan minAge now dir sess date
    { s with wst := out.1,
             queue := s.queue ++ out.2,
             metrics := { s.metrics with
                          queue_depth := s.metrics.queue_depth + out.2.length },
             enqueuedCount := s.enqueuedCount + out.2.length }
  | .recoveryRun root rootExists dates =>
    let out := recover root rootExists dates s.session s.queue
    { s with session := out.2.1,
             queue := out.2.2,
             metrics := { s.metrics with
                          queue_depth := s.metrics.queue_depth + out.1 },
             enqueuedCount := s.enqueuedCount + out.1 }
  | .workerRun w =>
    match s.queue with
    | [] => s
    | item :: rest =>
      let out := workerIterate s.session s.metrics item w
      { s with session := out.1,
               metrics := out.2,
               queue := rest,
               finishedCount := s.finishedCount + 1 }

def runEvents (s : AppState) : List AppEvent → AppState
  | [] => s
  | e :: es => runEvents (applyEvent s e) es

def initApp : AppState :=
  ⟨⟨[], ∅⟩, initialSessionState, {}, [], 0, 0⟩

/-! ## The session invariant (spec section 3) -/

def sessionInv (st : SessionState) : Prop :=
  st.active = true → st.session_name.isSome = true ∧ st.date_prefix.isSome = true

instance (st : SessionState) : Decidable (sessionInv st) := by
  unfold sessionInv; infer_instance

/-! ## Character-level lemmas -/

def upperList : List Char :=
  ['A','B','C','D','E','F','G','H','I','J','K','L','M',
   'N','O','P','Q','R','S','T','U','V','W','X','Y','Z']

theorem lowerChar_of_not_upper (c : Char) (h : c ∉ upperList) : lowerChar c = c := by
  unfold lowerChar
  split <;> simp_all [upperList]

theorem lowerChar_not_upper (c : Char) : lowerChar c ∉ upperList := by
  unfold lowerChar
  split <;> simp_all [upperList]

theorem lowerChar_idem (c : Char) : lowerChar (lowerChar c) = lowerChar c :=
  lowerChar_of_not_upper _ (lowerChar_not_upper c)

theorem lowerStr_idem (s : String) : lowerStr (lowerStr s) = lowerStr s := by
  cases s with
  | mk data =>
    simp only [lowerStr, List.map_map]
    exact congrArg String.mk (List.map_congr_left fun c _ => lowerChar_idem c)

theorem lowerChar_dot_iff (c : Char) : lowerChar c = '.' ↔ c = '.' := by
  unfold lowerChar
  split <;> simp_all

theorem rfindDot_map_lower (l : List Char) :
    rfindDot (l.map lowerChar) = rfindDot l := by
  induction l with
  | nil => rfl
  | cons c rest ih =>
    simp only [List.map_cons, rfindDot, ih]
    cases rfindDot rest with
    | some i => rfl
    | none => simp [lowerChar_dot_iff]

theorem suffixAux_map_lower (l : List Char) :
    suffixAux (l.map lowerChar) = (suffixAux l).map lowerChar := by
  unfold suffixAux
  rw [rfindDot_map_lower]
  cases rfindDot l with
  | none => rfl
  | some i =>
    simp only [List.length_map]
    split
    · rw [List.map_drop]
    · rfl

theorem pathSuffix_lowerStr (s : String) :
    pathSuffix (lowerStr s) = lowerStr (pathSuffix s) := by
  cases s with
  | mk data => simp [pathSuffix, lowerStr, suffixAux_map_lower]

/-! ## Pruning (claim C4) -/

theorem prunePending_eq_inter (pending currentNames : Finset String) :
    prunePending pending currentNames = pending ∩ currentNames := by
  ext x
  simp only [prunePending, Finset.mem_sdiff, Finset.mem_inter]
  tauto

/-- Claim C4, as frozen, asserts the pruning expression
`pending -= pending - set(current)` is a no-op.  It is not: with
`pending = {"a"}` and an empty current scan it empties the set. -/
theorem c4_prune_counterexample :
    ¬ prunePending ({"a"} : Finset String) (∅ : Finset String) = {"a"} := by
  decide

/-- Claim C4 (amended): `pending -= pending - set(current)` replaces
`pending` with its intersection with the current-scan names, exactly what
`pending &= set(current)` would do; it is not a no-op in general. -/
theorem c4_prune_is_intersection :
    (∀ pending currentNames : Finset String,
      prunePending pending currentNames = pending ∩ currentNames) ∧
    ¬ (∀ pending currentNames : Finset String,
        prunePending pending currentNames = pending) := by
  refine ⟨prunePending_eq_inter, fun h => ?_⟩
  have h2 := h {"a"} ∅
  rw [prunePending_eq_inter] at h2
  exact absurd h2 (by decide)

/-! ## Worker accounting (claim C3) -/

/-- Claim C3: for every dequeued item, a run of `_process_item` that raises
no exception increments `processed_ok` and `files.processed` (leaving the
error counters and `last_error` alone); a run that raises increments
`processed_err` and `files.failed` and stores `"<filename>: <traceback>"`
in `last_error` (leaving the success counters alone); in both cases the
`queue.depth` gauge is decremented and the queue task marked done exactly
once. -/
theorem c3_worker_accounting (st : SessionState) (m : Metrics)
    (item : WorkItem) (tb : String) :
    (workerStep st m item .ok).1.processed_ok = st.processed_ok + 1 ∧
    (workerStep st m item .ok).2.files_processed = m.files_processed + 1 ∧
    (workerStep st m item .ok).1.processed_err = st.processed_err ∧
    (workerStep st m item .ok).2.files_failed = m.files_failed ∧
    (workerStep st m item .ok).1.last_error = st.last_error ∧
    (workerStep st m item (.exc tb)).1.processed_err = st.processed_err + 1 ∧
    (workerStep st m item (.exc tb)).2.files_failed = m.files_failed + 1 ∧
    (workerStep st m item (.exc tb)).1.processed_ok = st.processed_ok ∧
    (workerStep st m item (.exc tb)).2.files_processed = m.files_processed ∧
    (workerStep st m item (.exc tb)).1.last_error
      = some ( item.filename ++ ": " ++ tb) ∧
    (workerStep st m item .ok).2.queue_depth = m.queue_depth - 1 ∧
    (workerStep st m item (.exc tb)).2.queue_depth = m.queue_depth - 1 ∧
    (workerStep st m item .ok).2.tasks_done = m.tasks_done + 1 ∧
    (workerStep st m item (.exc tb)).2.tasks_done = m.tasks_done + 1 := by
  simp [workerStep]

/-! ## Stop/start frame conditions (claim C6) -/

/-- Claim C6: from any state `stop_session` only flips `active` to false,
leaving `session_name`, `date_prefix`, both counters and `last_error`
untouched; and neither `stop_session` nor `start_session` (in either of its
branches) resets the `processed_ok` / `processed_err` counters. -/
theorem c6_stop_start_frame (st : SessionState) (cfg : PathsCfg)
    (supplied : Option String) (generated today : String) :
    (stop_session st).active = false ∧
    (stop_session st).session_name = st.session_name ∧
    SessionState.date_prefix (stop_session st) = st.date_prefix ∧
    (stop_session st).processed_ok = st.processed_ok ∧
    (stop_session st).processed_err = st.processed_err ∧
    (stop_session st).last_error = st.last_error ∧
    (start_session st cfg supplied generated today).1.processed_ok
      = st.processed_ok ∧
    (start_session st cfg supplied generated today).1.processed_err
      = st.processed_err := by
  refine ⟨rfl, rfl, rfl, rfl, rfl, rfl, ?_, ?_⟩ <;>
    by_cases h : st.active <;> simp [start_session, h]

/-! ## Session start (claim C5) -/

/-- Claim C5: `start_session` fails with the conflict error exactly when a
session is already active, leaving the state untouched; from an idle state
it resolves the name (the supplied one, falling back to a generated one),
creates the incoming, processing and staging directories for the captured
UTC date, marks the session active with those names, and returns
`(date_prefix, session_name)`.  The two cases below cover every possible
state, so the conflict failure happens if and only if `active` is true. -/
theorem c5_start_session (name0 date0 : Option String) (ok0 err0 : Int)
    (le0 : Option String) (cfg : PathsCfg) (supplied : Option String)
    (generated today : String) :
    start_session ⟨true, name0, date0, ok0, err0, le0⟩ cfg supplied generated today
      = (⟨true, name0, date0, ok0, err0, le0⟩, .error "Session already active") ∧
    start_session ⟨false, name0, date0, ok0, err0, le0⟩ cfg supplied generated today
      = (let name :=
           match supplied with
           | some n => if n = "" then generated else n
           | none => generated
         (⟨true, some name, some today, ok0, err0, le0⟩,
          .ok ([ cfg.nfs_incoming_dir ++ "/" ++ name,
                 cfg.nfs_processing_root ++ "/" ++ today ++ "/" ++ name,
                 cfg.local_staging_root ++ "/" ++ today ++ "/" ++ name ],
               today, name))) := by
  constructor <;> rfl

/-! ## The session invariant (claim C7) -/

/-- Claim C7: "active implies both names non-null" holds initially and is
preserved by `start_session` (both branches), `stop_session`, `recover` and
the worker's accounting updates. -/
theorem c7_invariant_preserved :
    sessionInv initialSessionState ∧
    (∀ st cfg supplied generated today, sessionInv st →
      sessionInv (start_session st cfg supplied generated today).1) ∧
    (∀ st, sessionInv st → sessionInv (stop_session st)) ∧
    (∀ root rootExists dates st queue, sessionInv st →
      sessionInv (recover root rootExists dates st queue).2.1) ∧
    (∀ st m item res, sessionInv st → sessionInv (workerStep st m item res).1) := by
  refine ⟨by decide, ?_, ?_, ?_, ?_⟩
  · intro st cfg supplied generated today h
    by_cases ha : st.active <;> simp_all [start_session, sessionInv]
  · intro st h
    simp [stop_session, sessionInv]
  · intro root rootExists dates st queue h
    unfold recover
    cases hs : scanProcessing root rootExists dates with
    | nil => simpa using h
    | cons first rest => simp [sessionInv]
  · intro st m item res h
    cases res <;> simp_all [workerStep, sessionInv]

theorem c7_invariant_witness :
    sessionInv initialSessionState ∧
    sessionInv (stop_session initialSessionState) :=
  ⟨c7_invariant_preserved.1,
   c7_invariant_preserved.2.2.1 initialSessionState (by decide)⟩

/-! ## Silently dropped claims count as successes (claim C10) -/

/-- Claim C10: when the claim rename of a non-recovery item fails with
`ENOENT` or `ESTALE`, `_process_item` returns normally having neither
staged, uploaded nor committed anything, and the surrounding worker
iteration therefore counts the item as a success: `processed_ok` and
`files.processed` go up, the failure counters and `last_error` stay put. -/
theorem c10_already_claimed_counts_ok (item : WorkItem) (w : ProcWorld)
    (st : SessionState) (m : Metrics)
    (hrec : item.from_recovery = false)
    (hclaim : w.claimRes = some .enoent ∨ w.claimRes = some .estale) :
    processItem item w = .ok emptyTrace ∧
    emptyTrace.staged = false ∧
    emptyTrace.uploaded = false ∧
    emptyTrace.committed = false ∧
    (workerIterate st m item w).1.processed_ok = st.processed_ok + 1 ∧
    (workerIterate st m item w).2.files_processed = m.files_processed + 1 ∧
    (workerIterate st m item w).1.processed_err = st.processed_err ∧
    (workerIterate st m item w).2.files_failed = m.files_failed ∧
    (workerIterate st m item w).1.last_error = st.last_error := by
  rcases hclaim with h | h <;>
    simp [processItem, hrec, h, workerIterate, outcomeOf, workerStep, emptyTrace]

theorem c10_witness :
    ((⟨"in/f.bin", "s", "20240101", "f.bin", false⟩ : WorkItem)
        |>.from_recovery) = false ∧
    ((⟨some .enoent, none, none, none, none, none⟩ : ProcWorld).claimRes
        = some .enoent ∨
     (⟨some .enoent, none, none, none, none, none⟩ : ProcWorld).claimRes
        = some .estale) ∧
    (processItem ⟨"in/f.bin", "s", "20240101", "f.bin", false⟩
        ⟨some .enoent, none, none, none, none, none⟩ = .ok emptyTrace ∧
     emptyTrace.staged = false ∧
     emptyTrace.uploaded = false ∧
     emptyTrace.committed = false ∧
     (workerIterate initialSessionState {}
        ⟨"in/f.bin", "s", "20240101", "f.bin", false⟩
        ⟨some .enoent, none, none, none, none, none⟩).1.processed_ok
       = ( initialSessionState.processed_ok) + 1 ∧
     (workerIterate initialSessionState {}
        ⟨"in/f.bin", "s", "20240101", "f.bin", false⟩
        ⟨some .enoent, none, none, none, none, none⟩).2.files_processed
       = (({} : Metrics).files_processed) + 1 ∧
     (workerIterate initialSessionState {}
        ⟨"in/f.bin", "s", "20240101", "f.bin", false⟩
        ⟨some .enoent, none, none, none, none, none⟩).1.processed_err
       = ( initialSessionState.processed_err) ∧
     (workerIterate initialSessionState {}
        ⟨"in/f.bin", "s", "20240101", "f.bin", false⟩
        ⟨some .enoent, none, none, none, none, none⟩).2.files_failed
       = (({} : Metrics).files_failed) ∧
     (workerIterate initialSessionState {}
        ⟨"in/f.bin", "s", "20240101", "f.bin", false⟩
        ⟨some .enoent, none, none, none, none, none⟩).1.last_error
       = ( initialSessionState.last_error)) :=
  ⟨rfl, Or.inl rfl,
   c10_already_claimed_counts_ok
     ⟨"in/f.bin", "s", "20240101", "f.bin", false⟩
     ⟨some .enoent, none, none, none, none, none⟩
     initialSessionState {} rfl (Or.inl rfl)⟩

/-! ## Queue-depth gauge accounting (claim C9) -/

theorem applyEvent_depth_delta (s : AppState) (e : AppEvent) :
    (applyEvent s e).metrics.queue_depth - s.metrics.queue_depth
      = (((applyEvent s e).enqueuedCount : Int) - (s.enqueuedCount : Int))
        - (((applyEvent s e).finishedCount : Int) - (s.finishedCount : Int)) := by
  cases e with
  | watcherPoll scan minAge now root =>
    simp only [applyEvent]
    push_cast
    ring
  | recoveryRun root rootExists dates =>
    simp only [applyEvent]
    push_cast
    ring
  | workerRun w =>
    simp only [applyEvent]
    cases hq : s.queue with
    | nil => simp
    | cons item rest =>
      simp only [workerIterate]
      cases h : outcomeOf (processItem item w) <;> simp [workerStep]

theorem runEvents_depth_inv (evs : List AppEvent) :
    ∀ s : AppState,
      s.metrics.queue_depth = (s.enqueuedCount : Int) - (s.finishedCount : Int) →
      (runEvents s evs).metrics.queue_depth
        = ((runEvents s evs).enqueuedCount : Int)
          - ((runEvents s evs).finishedCount : Int) := by
  induction evs with
  | nil => intro s h; exact h
  | cons e es ih =>
    intro s h
    have hd := applyEvent_depth_delta s e
    exact ih (applyEvent s e) (by omega)

/-- Claim C9: every scheduler step moves the `queue.depth` gauge by exactly
the number of items it enqueues minus the number of worker iterations it
finishes (one increment per enqueue by watcher or recovery, one decrement
per finished worker iteration, success or failure), and consequently along
any run from the initial state the gauge equals items enqueued minus items
finished. -/
theorem c9_queue_depth_gauge :
    (∀ s e, (applyEvent s e).metrics.queue_depth - s.metrics.queue_depth
        = (((applyEvent s e).enqueuedCount : Int) - (s.enqueuedCount : Int))
          - (((applyEvent s e).finishedCount : Int) - (s.finishedCount : Int))) ∧
    (∀ evs, (runEvents initApp evs).metrics.queue_depth
        = ((runEvents initApp evs).enqueuedCount : Int)
          - ((runEvents initApp evs).finishedCount : Int)) :=
  ⟨applyEvent_depth_delta,
   fun evs => runEvents_depth_inv evs initApp (by simp [initApp, initialSessionState])⟩

/-! ## Recovery lemmas (claim C2) -/

theorem insertByKey_perm {α : Type} (key : α → String) (x : α) (l : List α) :
    List.Perm (insertByKey key x l) (x :: l) := by
  induction l with
  | nil => exact List.Perm.refl _
  | cons y ys ih =>
    unfold insertByKey
    split
    · exact List.Perm.refl _
    · exact (List.Perm.cons y ih).trans (List.Perm.swap x y ys)

theorem sortByKey_perm {α : Type} (key : α → String) (l : List α) :
    List.Perm (sortByKey key l) l := by
  induction l with
  | nil => exact List.Perm.refl _
  | cons x xs ih =>
    exact (insertByKey_perm key x (sortByKey key xs)).trans (List.Perm.cons x ih)

theorem mem_sortByKey {α : Type} (key : α → String) (l : List α) (x : α) :
    x ∈ sortByKey key l ↔ x ∈ l :=
  (sortByKey_perm key l).mem_iff

/-- File qualifies for recovery: a regular file not ending in `.completed`. -/
def qualFile (f : FileEntry) : Bool :=
  f.isFile && !(strEndsWith f.name ".completed")

def sessionQualCount (s : SessionDir) : Nat :=
  if s.isDir then (s.files.filter qualFile).length else 0

def dateQualCount (d : DateDir) : Nat :=
  if d.isDir then (d.sessions.map sessionQualCount).sum else 0

/-- Number of files under `processing/` that recovery will re-enqueue. -/
def qualifyingCount (dates : List DateDir) : Nat :=
  (dates.map dateQualCount).sum

theorem mem_scanSessionFiles (root date sess : String) (files : List FileEntry)
    (w : WorkItem) :
    w ∈ scanSessionFiles root date sess files ↔
      ∃ f ∈ files, f.isFile = true ∧ strEndsWith f.name ".completed" = false ∧
        w = mkRecoveryItem root date sess f.name := by
  induction files with
  | nil => simp [scanSessionFiles]
  | cons f rest ih =>
    unfold scanSessionFiles
    cases hf : f.isFile <;> cases hc : strEndsWith f.name ".completed" <;>
      simp_all

theorem length_scanSessionFiles (root date sess : String)
    (files : List FileEntry) :
    (scanSessionFiles root date sess files).length
      = (files.filter qualFile).length := by
  induction files with
  | nil => rfl
  | cons f rest ih =>
    unfold scanSessionFiles
    cases hf : f.isFile <;> cases hc : strEndsWith f.name ".completed" <;>
      simp_all [qualFile, List.filter]

theorem mem_scanSessionDirs (root date : String) (sessions : List SessionDir)
    (w : WorkItem) :
    w ∈ scanSessionDirs root date sessions ↔
      ∃ s ∈ sessions, s.isDir = true ∧
        ∃ f ∈ s.files, f.isFile = true ∧ strEndsWith f.name ".completed" = false ∧
          w = mkRecoveryItem root date s.name f.name := by
  induction sessions with
  | nil => simp [scanSessionDirs]
  | cons s rest ih =>
    unfold scanSessionDirs
    cases hs : s.isDir <;> simp_all [mem_scanSessionFiles]

theorem length_scanSessionDirs (root date : String)
    (sessions : List SessionDir) :
    (scanSessionDirs root date sessions).length
      = (sessions.map sessionQualCount).sum := by
  induction sessions with
  | nil => rfl
  | cons s rest ih =>
    unfold scanSessionDirs
    cases hs : s.isDir <;>
      simp_all [sessionQualCount, length_scanSessionFiles]

theorem mem_scanDateDirs (root : String) (dlist : List DateDir) (w : WorkItem) :
    w ∈ scanDateDirs root dlist ↔
      ∃ d ∈ dlist, d.isDir = true ∧
        ∃ s ∈ d.sessions, s.isDir = true ∧
          ∃ f ∈ s.files, f.isFile = true ∧ strEndsWith f.name ".completed" = false ∧
            w = mkRecoveryItem root d.name s.name f.name := by
  induction dlist with
  | nil => simp [scanDateDirs]
  | cons d rest ih =>
    unfold scanDateDirs
    cases hd : d.isDir <;> simp_all [mem_scanSessionDirs, mem_sortByKey]

theorem length_scanDateDirs (root : String) (dlist : List DateDir) :
    (scanDateDirs root dlist).length = (dlist.map dateQualCount).sum := by
  induction dlist with
  | nil => rfl
  | cons d rest ih =>
    unfold scanDateDirs
    cases hd : d.isDir
    · simp_all [dateQualCount]
    · have hperm := (sortByKey_perm SessionDir.name d.sessions).map sessionQualCount
      simp_all [dateQualCount, length_scanSessionDirs, hperm.sum_eq]

theorem mem_scanProcessing (root : String) (dates : List DateDir) (w : WorkItem) :
    w ∈ scanProcessing root true dates ↔
      ∃ d ∈ dates, d.isDir = true ∧
        ∃ s ∈ d.sessions, s.isDir = true ∧
          ∃ f ∈ s.files, f.isFile = true ∧ strEndsWith f.name ".completed" = false ∧
            w = mkRecoveryItem root d.name s.name f.name := by
  unfold scanProcessing
  simp [mem_scanDateDirs, mem_sortByKey]

theorem length_scanProcessing (root : String) (dates : List DateDir) :
    (scanProcessing root true dates).length = qualifyingCount dates := by
  unfold scanProcessing qualifyingCount
  have hperm := (sortByKey_perm DateDir.name dates).map dateQualCount
  simp [length_scanDateDirs, hperm.sum_eq]

theorem pairLe_refl (a : String × String) : pairLe a a :=
  Or.inr ⟨rfl, le_refl _⟩

theorem pairLe_trans {a b c : String × String} :
    pairLe a b → pairLe b c → pairLe a c := by
  rintro (h | ⟨e, h⟩) (h' | ⟨e', h'⟩)
  · exact Or.inl (lt_trans h h')
  · exact Or.inl (e' ▸ h)
  · exact Or.inl (e ▸ h')
  · exact Or.inr ⟨e.trans e', le_trans h h'⟩

theorem pairLtB_true_le {a b : String × String} :
    pairLtB a b = true → pairLe a b := by
  unfold pairLtB
  split_ifs with h1 h2
  · exact fun _ => Or.inl h1
  · exact fun _ => Or.inr ⟨h2.1, le_of_lt h2.2⟩
  · intro h
    exact absurd h (by simp)

theorem pairLtB_false_le {a b : String × String} :
    pairLtB a b = false → pairLe b a := by
  unfold pairLtB
  split_ifs with h1 h2
  · intro h
    exact absurd h (by simp)
  · intro h
    exact absurd h (by simp)
  · intro _
    rcases lt_trichotomy a.1 b.1 with hlt | heq | hgt
    · exact absurd hlt h1
    · refine Or.inr ⟨heq.symm, ?_⟩
      by_contra hle
      exact h2 ⟨heq, lt_of_not_le hle⟩
    · exact Or.inl hgt

theorem maxByKey_spec (first : WorkItem) (rest : List WorkItem) :
    maxByKey first rest ∈ first :: rest ∧
    ∀ i ∈ first :: rest, pairLe (itemKey i) (itemKey (maxByKey first rest)) := by
  induction rest generalizing first with
  | nil =>
    refine ⟨List.mem_singleton_self _, ?_⟩
    intro i hi
    rw [List.mem_singleton] at hi
    rw [hi]
    exact pairLe_refl _
  | cons a rest ih =>
    have hfold : maxByKey first (a :: rest)
        = maxByKey (if pairLtB (itemKey first) (itemKey a) then a else first) rest := rfl
    rw [hfold]
    by_cases hb : pairLtB (itemKey first) (itemKey a) = true
    · rw [if_pos hb]
      refine ⟨?_, ?_⟩
      · rcases List.mem_cons.mp (ih a).1 with h | h
        · rw [h]
          exact List.mem_cons_of_mem _ (List.mem_cons_self _ _)
        · exact List.mem_cons_of_mem _ (List.mem_cons_of_mem _ h)
      · intro i hi
        rcases List.mem_cons.mp hi with heq | hi'
        · rw [heq]
          exact pairLe_trans (pairLtB_true_le hb)
            ((ih a).2 a (List.mem_cons_self _ _))
        · rcases List.mem_cons.mp hi' with heq | hi''
          · rw [heq]
            exact (ih a).2 a (List.mem_cons_self _ _)
          · exact (ih a).2 i (List.mem_cons_of_mem _ hi'')
    · rw [if_neg hb]
      have hb' : pairLtB (itemKey first) (itemKey a) = false :=
        Bool.eq_false_iff.mpr hb
      refine ⟨?_, ?_⟩
      · rcases List.mem_cons.mp (ih first).1 with h | h
        · rw [h]
          exact List.mem_cons_self _ _
        · exact List.mem_cons_of_mem _ (List.mem_cons_of_mem _ h)
      · intro i hi
        rcases List.mem_cons.mp hi with heq | hi'
        · rw [heq]
          exact (ih first).2 first (List.mem_cons_self _ _)
        · rcases List.mem_cons.mp hi' with heq | hi''
          · rw [heq]
            exact pairLe_trans (pairLtB_false_le hb')
              ((ih first).2 first (List.mem_cons_self _ _))
          · exact (ih first).2 i (List.mem_cons_of_mem _ hi'')

/-- Claim C2: the recovery scan produces exactly one `WorkItem` (with
`from_recovery = true`) per regular file under
`processing/<date>/<session>/` whose name does not end in `.completed`
(membership characterization plus a count equal to the number of
qualifying files); when at least one item exists, `recover` marks the
session active with the lexicographically greatest
`(date_prefix, session_name)` pair among the items (the chosen pair belongs
to an item and dominates every item) and appends all items to the queue;
when none exists it returns 0 and leaves the state and queue unchanged. -/
theorem c2_recover (root : String) (dates : List DateDir) (st : SessionState)
    (queue : List WorkItem) :
    (∀ w, w ∈ scanProcessing root true dates ↔
      ∃ d ∈ dates, d.isDir = true ∧
        ∃ s ∈ d.sessions, s.isDir = true ∧
          ∃ f ∈ s.files, f.isFile = true ∧ strEndsWith f.name ".completed" = false ∧
            w = mkRecoveryItem root d.name s.name f.name) ∧
    (∀ w ∈ scanProcessing root true dates, w.from_recovery = true) ∧
    (scanProcessing root true dates).length = qualifyingCount dates ∧
    (scanProcessing root true dates = [] →
      recover root true dates st queue = (0, st, queue)) ∧
    (∀ first rest, scanProcessing root true dates = first :: rest →
      recover root true dates st queue
        = ((first :: rest).length,
           { st with active := true,
                     session_name := some (maxByKey first rest).session_name,
                     date_prefix := some (itemKey (maxByKey first rest)).1 },
           queue ++ (first :: rest)) ∧
      maxByKey first rest ∈ first :: rest ∧
      ∀ w ∈ first :: rest, pairLe (itemKey w) (itemKey (maxByKey first rest))) := by
  refine ⟨mem_scanProcessing root dates, ?_, length_scanProcessing root dates,
    ?_, ?_⟩
  · intro w hw
    obtain ⟨d, _, _, s, _, _, f, _, _, _, hw'⟩ :=
      (mem_scanProcessing root dates w).mp hw
    rw [hw']
    rfl
  · intro h
    simp [recover, h]
  · intro first rest h
    refine ⟨?_, (maxByKey_spec first rest).1, (maxByKey_spec first rest).2⟩
    simp [recover, h, itemKey]

theorem c2_witness :
    recover "r" true
        [⟨"20240101", true, [⟨"alpha", true,
            [⟨"a.bin", true⟩, ⟨"b.bin.completed", true⟩]⟩]⟩]
        initialSessionState []
      = (1,
         { initialSessionState with
           active := true,
           session_name := some "alpha",
           date_prefix := some "20240101" },
         [mkRecoveryItem "r" "20240101" "alpha" "a.bin"]) := by
  have h := ((c2_recover "r"
      [⟨"20240101", true, [⟨"alpha", true,
          [⟨"a.bin", true⟩, ⟨"b.bin.completed", true⟩]⟩]⟩]
      initialSessionState []).2.2.2.2
      (mkRecoveryItem "r" "20240101" "alpha" "a.bin") [] (by rfl)).1
  simpa using h

/-! ## Scan-map lemmas (claims C1 and C8) -/

theorem mem_of_lookupScan (m : ScanMap) (f : String) (p : Int × Int)
    (h : lookupScan m f = some p) : (f, p.1, p.2) ∈ m := by
  induction m with
  | nil => simp [lookupScan] at h
  | cons e rest ih =>
    obtain ⟨n, s, t⟩ := e
    by_cases hn : n = f
    · subst hn
      rw [lookupScan, if_pos rfl] at h
      obtain rfl := (Option.some.inj h).symm
      exact List.mem_cons_self _ _
    · rw [lookupScan, if_neg hn] at h
      exact List.mem_cons_of_mem _ (ih h)

theorem lookupScan_of_mem (m : ScanMap)
    (hnd : (m.map (fun e => e.1)).Nodup) (f : String) (s t : Int)
    (hm : (f, s, t) ∈ m) : lookupScan m f = some (s, t) := by
  induction m with
  | nil => simp at hm
  | cons e rest ih =>
    obtain ⟨n, s', t'⟩ := e
    obtain ⟨hne, hnd'⟩ := List.nodup_cons.mp hnd
    rcases List.mem_cons.mp hm with heq | hm'
    · have h1 : f = n ∧ s = s' ∧ t = t' := by simpa using heq
      obtain ⟨rfl, rfl, rfl⟩ := h1
      simp [lookupScan]
    · have hnf : n ≠ f := by
        intro hnf
        subst hnf
        exact hne (List.mem_map.mpr ⟨(n, s, t), hm', rfl⟩)
      rw [lookupScan, if_neg hnf]
      exact ih hnd' hm'

theorem mem_namesOf (m : ScanMap) (f : String) :
    f ∈ namesOf m ↔ ∃ s t, (f, s, t) ∈ m := by
  simp only [namesOf, List.mem_toFinset, List.mem_map]
  constructor
  · rintro ⟨⟨n, s, t⟩, hm, rfl⟩
    exact ⟨s, t, hm⟩
  · rintro ⟨s, t, hm⟩
    exact ⟨(f, s, t), hm, rfl⟩

theorem scanEntries_mem (allowed : List String) (entries : List DirEntry) :
    ∀ cur : ScanMap, scanEntries allowed entries = .ok cur →
      ∀ f s t, (f, s, t) ∈ cur ↔
        ∃ e ∈ entries, e.name = f ∧ e.isRegFile = true ∧
          passesExt allowed e.name = true ∧ e.statResult = .ok s t := by
  induction entries with
  | nil =>
    intro cur h f s t
    obtain rfl : ([] : ScanMap) = cur := Except.ok.inj h
    simp
  | cons e rest ih =>
    intro cur h f s t
    by_cases hreg : e.isRegFile = false
    · rw [scanEntries, if_pos hreg] at h
      simp only [List.mem_cons, ih cur h f s t]
      constructor
      · rintro ⟨e', he', rest'⟩
        exact ⟨e', Or.inr he', rest'⟩
      · rintro ⟨e', he' | he', hn, hr, hp, hs⟩
        · subst he'
          rw [hreg] at hr
          cases hr
        · exact ⟨e', he', hn, hr, hp, hs⟩
    · rw [scanEntries, if_neg hreg] at h
      by_cases hflt : ((!allowed.isEmpty)
          && !(allowed.contains (lowerStr (pathSuffix e.name)))) = true
      · rw [if_pos hflt] at h
        have hpass : passesExt allowed e.name = false := by
          revert hflt
          unfold passesExt
          cases allowed.isEmpty <;>
            cases allowed.contains (lowerStr (pathSuffix e.name)) <;> simp
        simp only [List.mem_cons, ih cur h f s t]
        constructor
        · rintro ⟨e', he', rest'⟩
          exact ⟨e', Or.inr he', rest'⟩
        · rintro ⟨e', he' | he', hn, hr, hp, hs⟩
          · subst he'
            rw [hpass] at hp
            cases hp
          · exact ⟨e', he', hn, hr, hp, hs⟩
      · rw [if_neg hflt] at h
        have hpass : passesExt allowed e.name = true := by
          revert hflt
          unfold passesExt
          cases allowed.isEmpty <;>
            cases allowed.contains (lowerStr (pathSuffix e.name)) <;> simp
        have hreg' : e.isRegFile = true := by
          revert hreg
          cases e.isRegFile <;> simp
        cases hstat : e.statResult with
        | ok size mtime =>
          rw [hstat] at h
          cases hrest : scanEntries allowed rest with
          | error code =>
            rw [hrest] at h
            cases h
          | ok cur' =>
            rw [hrest] at h
            obtain rfl : (e.name, size, mtime) :: cur' = cur := Except.ok.inj h
            simp only [List.mem_cons, ih cur' hrest f s t]
            constructor
            · rintro (heq | ⟨e', he', hn, hr, hp, hs⟩)
              · have h1 : f = e.name ∧ s = size ∧ t = mtime := by simpa using heq
                obtain ⟨rfl, rfl, rfl⟩ := h1
                exact ⟨e, Or.inl rfl, rfl, hreg', hpass, hstat⟩
              · exact ⟨e', Or.inr he', hn, hr, hp, hs⟩
            · rintro ⟨e', he' | he', hn, hr, hp, hs⟩
              · subst he'
                rw [hstat] at hs
                have h2 : size = s ∧ mtime = t := by simpa using hs
                obtain ⟨rfl, rfl⟩ := h2
                exact Or.inl (by rw [hn])
              · exact Or.inr ⟨e', he', hn, hr, hp, hs⟩
        | transientErr =>
          rw [hstat] at h
          simp only [List.mem_cons, ih cur h f s t]
          constructor
          · rintro ⟨e', he', rest'⟩
            exact ⟨e', Or.inr he', rest'⟩
          · rintro ⟨e', he' | he', hn, hr, hp, hs⟩
            · subst he'
              rw [hstat] at hs
              cases hs
            · exact ⟨e', he', hn, hr, hp, hs⟩
        | fatalErr code =>
          rw [hstat] at h
          cases h

/-- Characterization of one pass of the watcher's emit loop: an item is
produced exactly for the names of the current scan that are not pending,
match the previous scan and are old enough; the final pending set is the
initial one plus the enqueued names. -/
theorem runCycle_spec (prev : ScanMap) (minAge now : Int)
    (dir sess date : String) :
    ∀ (cur : ScanMap) (pend : Finset String),
      (cur.map (fun e => e.1)).Nodup →
      (∀ w, w ∈ (runCycle prev minAge now dir sess date cur pend).1 ↔
        ∃ f s t, (f, s, t) ∈ cur ∧ f ∉ pend ∧ lookupScan prev f = some (s, t) ∧
          minAge ≤ now - t ∧ w = ⟨dir ++ "/" ++ f, sess, date, f, false⟩) ∧
      (∀ g, g ∈ (runCycle prev minAge now dir sess date cur pend).2 ↔
        g ∈ pend ∨ ∃ s t, (g, s, t) ∈ cur ∧ lookupScan prev g = some (s, t) ∧
          minAge ≤ now - t) := by
  intro cur
  induction cur with
  | nil =>
    intro pend hnd
    constructor
    · intro w
      simp [runCycle]
    · intro g
      simp [runCycle]
  | cons hd rest ih =>
    obtain ⟨f, s, t⟩ := hd
    intro pend hnd
    have hfk : f ∉ rest.map (fun e => e.1) := (List.nodup_cons.mp hnd).1
    have hnd' : (rest.map (fun e => e.1)).Nodup := (List.nodup_cons.mp hnd).2
    have hkey : ∀ f' s' t', (f', s', t') ∈ rest → f' ≠ f := by
      intro f' s' t' hm hcontra
      subst hcontra
      exact hfk (List.mem_map.mpr ⟨(f', s', t'), hm, rfl⟩)
    by_cases hp : f ∈ pend
    · -- name already pending: skipped
      have hrun : runCycle prev minAge now dir sess date ((f, s, t) :: rest) pend
          = runCycle prev minAge now dir sess date rest pend := by
        simp only [runCycle, if_pos hp]
      rw [hrun]
      obtain ⟨ih1, ih2⟩ := ih pend hnd'
      constructor
      · intro w
        rw [ih1 w]
        constructor
        · rintro ⟨f', s', t', hm, hnp, hl, hage, hw⟩
          exact ⟨f', s', t', List.mem_cons_of_mem _ hm, hnp, hl, hage, hw⟩
        · rintro ⟨f', s', t', hm, hnp, hl, hage, hw⟩
          rcases List.mem_cons.mp hm with heq | hm'
          · have h1 : f' = f ∧ s' = s ∧ t' = t := by simpa using heq
            exact absurd (h1.1 ▸ hp) hnp
          · exact ⟨f', s', t', hm', hnp, hl, hage, hw⟩
      · intro g
        rw [ih2 g]
        constructor
        · rintro (hg | ⟨s', t', hm, hl, hage⟩)
          · exact Or.inl hg
          · exact Or.inr ⟨s', t', List.mem_cons_of_mem _ hm, hl, hage⟩
        · rintro (hg | ⟨s', t', hm, hl, hage⟩)
          · exact Or.inl hg
          · rcases List.mem_cons.mp hm with heq | hm'
            · have h1 : g = f ∧ s' = s ∧ t' = t := by simpa using heq
              exact Or.inl (h1.1 ▸ hp)
            · exact Or.inr ⟨s', t', hm', hl, hage⟩
    · cases hl : lookupScan prev f with
      | none =>
        -- not seen in the previous scan: skipped
        have hrun : runCycle prev minAge now dir sess date ((f, s, t) :: rest) pend
            = runCycle prev minAge now dir sess date rest pend := by
          simp only [runCycle, if_neg hp, hl]
        rw [hrun]
        obtain ⟨ih1, ih2⟩ := ih pend hnd'
        constructor
        · intro w
          rw [ih1 w]
          constructor
          · rintro ⟨f', s', t', hm, hnp, hl', hage, hw⟩
            exact ⟨f', s', t', List.mem_cons_of_mem _ hm, hnp, hl', hage, hw⟩
          · rintro ⟨f', s', t', hm, hnp, hl', hage, hw⟩
            rcases List.mem_cons.mp hm with heq | hm'
            · have h1 : f' = f ∧ s' = s ∧ t' = t := by simpa using heq
              rw [h1.1, hl] at hl'
              cases hl'
            · exact ⟨f', s', t', hm', hnp, hl', hage, hw⟩
        · intro g
          rw [ih2 g]
          constructor
          · rintro (hg | ⟨s', t', hm, hl', hage⟩)
            · exact Or.inl hg
            · exact Or.inr ⟨s', t', List.mem_cons_of_mem _ hm, hl', hage⟩
          · rintro (hg | ⟨s', t', hm, hl', hage⟩)
            · exact Or.inl hg
            · rcases List.mem_cons.mp hm with heq | hm'
              · have h1 : g = f ∧ s' = s ∧ t' = t := by simpa using heq
                rw [h1.1, hl] at hl'
                cases hl'
              · exact Or.inr ⟨s', t', hm', hl', hage⟩
      | some p =>
        obtain ⟨ps, pt⟩ := p
        by_cases hch : s ≠ ps ∨ t ≠ pt
        · -- size or mtime changed: skipped
          have hrun : runCycle prev minAge now dir sess date ((f, s, t) :: rest) pend
              = runCycle prev minAge now dir sess date rest pend := by
            simp only [runCycle, if_neg hp, hl]
            rw [if_pos hch]
          rw [hrun]
          obtain ⟨ih1, ih2⟩ := ih pend hnd'
          constructor
          · intro w
            rw [ih1 w]
            constructor
            · rintro ⟨f', s', t', hm, hnp, hl', hage, hw⟩
              exact ⟨f', s', t', List.mem_cons_of_mem _ hm, hnp, hl', hage, hw⟩
            · rintro ⟨f', s', t', hm, hnp, hl', hage, hw⟩
              rcases List.mem_cons.mp hm with heq | hm'
              · have h1 : f' = f ∧ s' = s ∧ t' = t := by simpa using heq
                obtain ⟨rfl, rfl, rfl⟩ := h1
                rw [hl] at hl'
                have h2 : ps = s' ∧ pt = t' := by simpa using hl'
                exact absurd hch (by simp [h2.1, h2.2])
              · exact ⟨f', s', t', hm', hnp, hl', hage, hw⟩
          · intro g
            rw [ih2 g]
            constructor
            · rintro (hg | ⟨s', t', hm, hl', hage⟩)
              · exact Or.inl hg
              · exact Or.inr ⟨s', t', List.mem_cons_of_mem _ hm, hl', hage⟩
            · rintro (hg | ⟨s', t', hm, hl', hage⟩)
              · exact Or.inl hg
              · rcases List.mem_cons.mp hm with heq | hm'
                · have h1 : g = f ∧ s' = s ∧ t' = t := by simpa using heq
                  obtain ⟨rfl, rfl, rfl⟩ := h1
                  rw [hl] at hl'
                  have h2 : ps = s' ∧ pt = t' := by simpa using hl'
                  exact absurd hch (by simp [h2.1, h2.2])
                · exact Or.inr ⟨s', t', hm', hl', hage⟩
        · by_cases hage : now - t < minAge
          · -- too young: skipped
            have hrun : runCycle prev minAge now dir sess date ((f, s, t) :: rest) pend
                = runCycle prev minAge now dir sess date rest pend := by
              simp only [runCycle, if_neg hp, hl]
              rw [if_neg hch, if_pos hage]
            rw [hrun]
            obtain ⟨ih1, ih2⟩ := ih pend hnd'
            constructor
            · intro w
              rw [ih1 w]
              constructor
              · rintro ⟨f', s', t', hm, hnp, hl', hage', hw⟩
                exact ⟨f', s', t', List.mem_cons_of_mem _ hm, hnp, hl', hage', hw⟩
              · rintro ⟨f', s', t', hm, hnp, hl', hage', hw⟩
                rcases List.mem_cons.mp hm with heq | hm'
                · have h1 : f' = f ∧ s' = s ∧ t' = t := by simpa using heq
                  obtain ⟨rfl, rfl, rfl⟩ := h1
                  exact absurd hage (by omega)
                · exact ⟨f', s', t', hm', hnp, hl', hage', hw⟩
            · intro g
              rw [ih2 g]
              constructor
              · rintro (hg | ⟨s', t', hm, hl', hage'⟩)
                · exact Or.inl hg
                · exact Or.inr ⟨s', t', List.mem_cons_of_mem _ hm, hl', hage'⟩
              · rintro (hg | ⟨s', t', hm, hl', hage'⟩)
                · exact Or.inl hg
                · rcases List.mem_cons.mp hm with heq | hm'
                  · have h1 : g = f ∧ s' = s ∧ t' = t := by simpa using heq
                    obtain ⟨rfl, rfl, rfl⟩ := h1
                    exact absurd hage (by omega)
                  · exact Or.inr ⟨s', t', hm', hl', hage'⟩
          · -- stable: enqueued
            have hse : s = ps ∧ t = pt := by
              rcases not_or.mp hch with ⟨h1, h2⟩
              exact ⟨not_not.mp h1, not_not.mp h2⟩
            have hrun : runCycle prev minAge now dir sess date ((f, s, t) :: rest) pend
                = ((⟨dir ++ "/" ++ f, sess, date, f, false⟩ : WorkItem)
                    :: (runCycle prev minAge now dir sess date rest (insert f pend)).1,
                   (runCycle prev minAge now dir sess date rest (insert f pend)).2) := by
              simp only [runCycle, if_neg hp, hl]
              rw [if_neg hch, if_neg hage]
            rw [hrun]
            obtain ⟨ih1, ih2⟩ := ih (insert f pend) hnd'
            constructor
            · intro w
              simp only [List.mem_cons]
              rw [ih1 w]
              constructor
              · rintro (rfl | ⟨f', s', t', hm, hnp, hl', hage', hw⟩)
                · exact ⟨f, s, t, Or.inl rfl, hp, hse.1 ▸ hse.2 ▸ hl,
                    by omega, rfl⟩
                · have hne : f' ≠ f := hkey f' s' t' hm
                  exact ⟨f', s', t', Or.inr hm,
                    fun hin => hnp (Finset.mem_insert_of_mem hin), hl', hage', hw⟩
              · rintro ⟨f', s', t', hm, hnp, hl', hage', hw⟩
                rcases hm with heq | hm'
                · have h1 : f' = f ∧ s' = s ∧ t' = t := by simpa using heq
                  obtain ⟨rfl, rfl, rfl⟩ := h1
                  exact Or.inl hw
                · have hne : f' ≠ f := hkey f' s' t' hm'
                  refine Or.inr ⟨f', s', t', hm', ?_, hl', hage', hw⟩
                  intro hin
                  rcases Finset.mem_insert.mp hin with heq' | hin'
                  · exact hne heq'
                  · exact hnp hin'
            · intro g
              rw [ih2 g]
              constructor
              · rintro (hg | ⟨s', t', hm, hl', hage'⟩)
                · rcases Finset.mem_insert.mp hg with rfl | hg'
                  · exact Or.inr ⟨s, t, List.mem_cons_self _ _,
                      hse.1 ▸ hse.2 ▸ hl, by omega⟩
                  · exact Or.inl hg'
                · exact Or.inr ⟨s', t', List.mem_cons_of_mem _ hm, hl', hage'⟩
              · rintro (hg | ⟨s', t', hm, hl', hage'⟩)
                · exact Or.inl (Finset.mem_insert_of_mem hg)
                · rcases List.mem_cons.mp hm with heq | hm'
                  · have h1 : g = f ∧ s' = s ∧ t' = t := by simpa using heq
                    exact Or.inl (h1.1 ▸ Finset.mem_insert_self f pend)
                  · exact Or.inr ⟨s', t', hm', hl', hage'⟩

theorem passesExt_iff (allowed : List String) (n : String) :
    passesExt allowed n = true ↔
      allowed = [] ∨ lowerStr (pathSuffix n) ∈ allowed := by
  simp [passesExt, List.isEmpty_iff]

theorem map_lowerChar_idem (l : List Char) :
    (l.map lowerChar).map lowerChar = l.map lowerChar := by
  rw [List.map_map]
  exact List.map_congr_left fun c _ => lowerChar_idem c

theorem parse_extensions_shape (v : String) (e : String)
    (he : e ∈ parse_extensions v) :
    e.data.head? = some '.' ∧ lowerStr e = e := by
  unfold parse_extensions at he
  by_cases hv : trimChars v.data = []
  · rw [if_pos hv] at he
    cases he
  · rw [if_neg hv] at he
    obtain ⟨x, _, hxe⟩ := List.mem_map.mp he
    by_cases hh : x.head? = some '.'
    · rw [if_pos hh] at hxe
      subst hxe
      refine ⟨?_, ?_⟩
      · show (x.map lowerChar).head? = some '.'
        rw [List.head?_map, hh]
        rfl
      · show (⟨(x.map lowerChar).map lowerChar⟩ : String) = ⟨x.map lowerChar⟩
        rw [map_lowerChar_idem]
    · rw [if_neg hh] at hxe
      subst hxe
      refine ⟨rfl, ?_⟩
      show (⟨('.' :: x.map lowerChar).map lowerChar⟩ : String)
          = ⟨'.' :: x.map lowerChar⟩
      rw [List.map_cons, map_lowerChar_idem]
      rfl

/-- Claim C8: a successful scan returns exactly the regular non-symlink
entries with a successful stat that pass the extension filter — every such
file when the configured set is empty, and exactly those whose lowercased
suffix belongs to the set otherwise; parsed extensions are dot-prefixed and
lowercase, and the filter test is insensitive to the case of the scanned
name. -/
theorem c8_extension_filter :
    (∀ (allowed : List String) (entries : List DirEntry) (cur : ScanMap),
      scanEntries allowed entries = .ok cur →
      ∀ f s t, (f, s, t) ∈ cur ↔
        ∃ e ∈ entries, e.name = f ∧ e.isRegFile = true ∧ e.statResult = .ok s t ∧
          (allowed = [] ∨ lowerStr (pathSuffix f) ∈ allowed)) ∧
    (∀ v e, e ∈ parse_extensions v → e.data.head? = some '.' ∧ lowerStr e = e) ∧
    (∀ (allowed : List String) (n₁ n₂ : String), lowerStr n₁ = lowerStr n₂ →
      passesExt allowed n₁ = passesExt allowed n₂) := by
  refine ⟨?_, parse_extensions_shape, ?_⟩
  · intro allowed entries cur h f s t
    rw [scanEntries_mem allowed entries cur h f s t]
    constructor
    · rintro ⟨e, he, hn, hr, hp, hs⟩
      refine ⟨e, he, hn, hr, hs, ?_⟩
      rw [hn] at hp
      exact (passesExt_iff allowed f).mp hp
    · rintro ⟨e, he, hn, hr, hs, hdisj⟩
      refine ⟨e, he, hn, hr, ?_, hs⟩
      rw [hn]
      exact (passesExt_iff allowed f).mpr hdisj
  · intro allowed n₁ n₂ hl
    have heq : lowerStr (pathSuffix n₁) = lowerStr (pathSuffix n₂) := by
      rw [← pathSuffix_lowerStr, ← pathSuffix_lowerStr, hl]
    unfold passesExt
    rw [heq]

theorem c8_witness :
    scanEntries [".bin"] [⟨"a.BIN", true, .ok 7 3⟩] = .ok [("a.BIN", 7, 3)] ∧
    (".bin" ∈ parse_extensions ".BIN, dat") ∧
    lowerStr "A.BIN" = lowerStr "a.bin" ∧
    (("a.BIN", 7, 3) ∈ ([("a.BIN", 7, 3)] : ScanMap)) ∧
    ((".bin" : String).data.head? = some '.' ∧ lowerStr ".bin" = ".bin") ∧
    passesExt [".bin"] "A.BIN" = passesExt [".bin"] "a.bin" := by
  refine ⟨rfl, by decide, rfl, ?_, ?_, ?_⟩
  · exact (c8_extension_filter.1 [".bin"] [⟨"a.BIN", true, .ok 7 3⟩]
      [("a.BIN", 7, 3)] rfl "a.BIN" 7 3).mpr
      ⟨⟨"a.BIN", true, .ok 7 3⟩, List.mem_singleton_self _, rfl, rfl, rfl,
        Or.inr (by decide)⟩
  · exact c8_extension_filter.2.1 ".BIN, dat" ".bin" (by decide)
  · exact c8_extension_filter.2.2 [".bin"] "A.BIN" "a.bin" rfl

theorem watcherCycle_active_ok (st : WatcherState) (current : ScanMap)
    (minAge now : Int) (dir sess date : String) :
    watcherCycle st true (.ok current) minAge now dir sess date
      = (⟨current, (runCycle st.previous minAge now dir sess date current
            (prunePending st.pending (namesOf current))).2⟩,
         (runCycle st.previous minAge now dir sess date current
            (prunePending st.pending (namesOf current))).1) := rfl

/-- Claim C1: in an active cycle whose scan succeeded, the filename `f` is
enqueued (as a `WorkItem` with `from_recovery = false`) if and only if `f`
passed the extension filter and appears in the current scan, appears in the
previous scan with the identical `(size, mtime)` pair, is at least
`min_file_age_s` old, and is not already pending; every enqueued filename
ends up in the new pending set (which otherwise only keeps old pending
names still present in the scan), and the previous-scan map is replaced by
the current one. -/
theorem c1_watcher_stable_enqueue
    (entries : List DirEntry) (allowed : List String)
    (current previous : ScanMap) (pending : Finset String)
    (minAge now : Int) (dir sess date : String)
    (hscan : scanEntries allowed entries = .ok current)
    (hnd : (current.map (fun e => e.1)).Nodup) :
    (∀ f, (⟨dir ++ "/" ++ f, sess, date, f, false⟩ : WorkItem)
        ∈ (watcherCycle ⟨previous, pending⟩ true (.ok current)
            minAge now dir sess date).2 ↔
      passesExt allowed f = true ∧
      (∃ s t, lookupScan current f = some (s, t) ∧
        lookupScan previous f = some (s, t) ∧ minAge ≤ now - t) ∧
      f ∉ pending) ∧
    (∀ w ∈ (watcherCycle ⟨previous, pending⟩ true (.ok current)
        minAge now dir sess date).2,
      w.from_recovery = false ∧
      w.filename ∈ (watcherCycle ⟨previous, pending⟩ true (.ok current)
          minAge now dir sess date).1.pending) ∧
    (∀ g, g ∈ (watcherCycle ⟨previous, pending⟩ true (.ok current)
        minAge now dir sess date).1.pending ↔
      (g ∈ pending ∧ g ∈ namesOf current) ∨
      (⟨dir ++ "/" ++ g, sess, date, g, false⟩ : WorkItem)
        ∈ (watcherCycle ⟨previous, pending⟩ true (.ok current)
            minAge now dir sess date).2) ∧
    (watcherCycle ⟨previous, pending⟩ true (.ok current)
        minAge now dir sess date).1.previous = current := by
  obtain ⟨hrc1, hrc2⟩ := runCycle_spec previous minAge now dir sess date
    current (prunePending pending (namesOf current)) hnd
  have hpr : ∀ g, g ∈ prunePending pending (namesOf current) ↔
      g ∈ pending ∧ g ∈ namesOf current := by
    intro g
    rw [prunePending_eq_inter]
    exact Finset.mem_inter
  refine ⟨?_, ?_, ?_, rfl⟩
  · intro f
    show (⟨dir ++ "/" ++ f, sess, date, f, false⟩ : WorkItem)
        ∈ (runCycle previous minAge now dir sess date current
            (prunePending pending (namesOf current))).1 ↔ _
    rw [hrc1]
    constructor
    · rintro ⟨f', s, t, hm, hnp, hl, hage, hw⟩
      have hf : f = f' := congrArg WorkItem.filename hw
      subst hf
      refine ⟨?_, ⟨s, t, lookupScan_of_mem current hnd f s t hm, hl, hage⟩, ?_⟩
      · obtain ⟨e, _, hname, _, hpass, _⟩ :=
          (scanEntries_mem allowed entries current hscan f s t).mp hm
        rw [← hname]
        exact hpass
      · intro hfp
        exact hnp ((hpr f).mpr ⟨hfp, (mem_namesOf current f).mpr ⟨s, t, hm⟩⟩)
    · rintro ⟨hpass, ⟨s, t, hlc, hlp, hage⟩, hfp⟩
      have hm := mem_of_lookupScan current f (s, t) hlc
      refine ⟨f, s, t, hm, ?_, hlp, hage, rfl⟩
      intro hin
      exact hfp ((hpr f).mp hin).1
  · intro w hw
    have hw' : w ∈ (runCycle previous minAge now dir sess date current
        (prunePending pending (namesOf current))).1 := hw
    obtain ⟨f', s, t, hm, _, hl, hage, hwe⟩ := (hrc1 w).mp hw'
    subst hwe
    refine ⟨rfl, ?_⟩
    show f' ∈ (runCycle previous minAge now dir sess date current
        (prunePending pending (namesOf current))).2
    exact (hrc2 f').mpr (Or.inr ⟨s, t, hm, hl, hage⟩)
  · intro g
    show g ∈ (runCycle previous minAge now dir sess date current
        (prunePending pending (namesOf current))).2 ↔ _
    rw [hrc2]
    constructor
    · rintro (hg | ⟨s, t, hm, hl, hage⟩)
      · exact Or.inl ((hpr g).mp hg)
      · by_cases hgp : g ∈ pending
        · exact Or.inl ⟨hgp, (mem_namesOf current g).mpr ⟨s, t, hm⟩⟩
        · refine Or.inr ?_
          show (⟨dir ++ "/" ++ g, sess, date, g, false⟩ : WorkItem)
              ∈ (runCycle previous minAge now dir sess date current
                  (prunePending pending (namesOf current))).1
          refine (hrc1 _).mpr ⟨g, s, t, hm, ?_, hl, hage, rfl⟩
          intro hin
          exact hgp ((hpr g).mp hin).1
    · rintro (⟨hgp, hgn⟩ | hmem)
      · exact Or.inl ((hpr g).mpr ⟨hgp, hgn⟩)
      · have hmem' : (⟨dir ++ "/" ++ g, sess, date, g, false⟩ : WorkItem)
            ∈ (runCycle previous minAge now dir sess date current
                (prunePending pending (namesOf current))).1 := hmem
        obtain ⟨f', s, t, hm, _, hl, hage, hwe⟩ := (hrc1 _).mp hmem'
        have hf : g = f' := congrArg WorkItem.filename hwe
        subst hf
        exact Or.inr ⟨s, t, hm, hl, hage⟩

theorem c1_witness :
    scanEntries [] [⟨"a.bin", true, .ok 100 10⟩] = .ok [("a.bin", 100, 10)] ∧
    (([("a.bin", 100, 10)] : ScanMap).map (fun e => e.1)).Nodup ∧
    ((⟨"in/s" ++ "/" ++ "a.bin", "s", "20240101", "a.bin", false⟩ : WorkItem)
      ∈ (watcherCycle ⟨[("a.bin", 100, 10)], ∅⟩ true (.ok [("a.bin", 100, 10)])
          5 20 "in/s" "s" "20240101").2) := by
  refine ⟨rfl, by decide, ?_⟩
  exact ((c1_watcher_stable_enqueue [⟨"a.bin", true, .ok 100 10⟩] []
      [("a.bin", 100, 10)] [("a.bin", 100, 10)] ∅ 5 20 "in/s" "s" "20240101"
      rfl (by decide)).1 "a.bin").mpr
    ⟨rfl, ⟨100, 10, rfl, rfl, by decide⟩, Finset.not_mem_empty _⟩

end NfsWatcher
